import Mathlib

/-!
Verification of the manifold topology kernel: the Decompose/Compose pair
(src/src/constructors.cpp) and the parallel execution substrate
(src/src/parallel.h), as a shallow embedding.

Machine `double` scalars (vertex positions, epsilon, tolerance) carry through
the modelled operations untouched, so they are embedded as exact rationals.
Indices are `Nat`.
-/

namespace ManifoldSpec

/-- A 3-component position (vec3). Decompose/Compose never compute on
positions, they only move them, so the coordinate field is opaque payload. -/
abbrev Vec3 := ℚ × ℚ × ℚ

/-- Directed edge record of the half-edge mesh (shared.h `Halfedge`):
start and end vertex indices. Pairing is implicit in the array layout. -/
structure Halfedge where
  startVert : Nat
  endVert : Nat
  deriving DecidableEq, Inhabited

/-- A half-edge is forward when its start vertex index is below its end
vertex index; forward half-edges visit each undirected edge once. -/
def Halfedge.IsForward (h : Halfedge) : Bool := h.startVert < h.endVert

/-- The mesh's internal representation (`Manifold::Impl`): vertex position
array, half-edge array (3 consecutive entries per triangle), and the two
precision scalars. -/
structure Impl where
  vertPos : List Vec3
  halfedge : List Halfedge
  epsilon : ℚ
  tolerance : ℚ
  deriving DecidableEq, Inhabited

/-- Vertex count: size of the vertex position array. -/
def NumVert (m : Impl) : Nat := m.vertPos.length

/-- Triangle count: half-edge count divided by three. -/
def NumTri (m : Impl) : Nat := m.halfedge.length / 3

/-- Invariant of a well-formed mesh consumed from the construction layer:
every half-edge references in-range vertices. -/
def validRefs (m : Impl) : Prop :=
  ∀ h ∈ m.halfedge, h.startVert < NumVert m ∧ h.endVert < NumVert m

/-- Well-formed mesh: half-edge array length is exactly 3 * triangle count
and all vertex references are in range. -/
def validMesh (m : Impl) : Prop :=
  m.halfedge.length = 3 * NumTri m ∧ validRefs m

/-- A vertex is incident on a triangle when some half-edge touches it. -/
def incident (m : Impl) (v : Nat) : Prop :=
  ∃ h ∈ m.halfedge, h.startVert = v ∨ h.endVert = v

instance (m : Impl) : Decidable (validRefs m) := by
  unfold validRefs
  exact List.decidableBAll _ _

instance (m : Impl) (v : Nat) : Decidable (incident m v) := by
  unfold incident
  exact List.decidableBEx _ _

instance (m : Impl) : Decidable (validMesh m) := by
  unfold validMesh
  infer_instance

/-- The observable geometry of a mesh: its vertex and half-edge arrays. -/
def geom (m : Impl) : List Vec3 × List Halfedge := (m.vertPos, m.halfedge)

/-! ### Parallel substrate (src/src/parallel.h)

In this source the substrate is the sequential PSTL subset: every primitive
takes an `ExecutionPolicy` and runs the same `std` algorithm regardless of
it. Iterator ranges are embedded as Lean lists with explicit offsets. -/

/-- Execution policy enum of parallel.h. -/
inductive ExecutionPolicy
  | Par
  | Seq
  deriving DecidableEq

/-- `kSeqThreshold = 1e4`. -/
def kSeqThreshold : Nat := 10000

/-- `autoPolicy(size, threshold)`: Seq for small workloads, Par above the
threshold. -/
def autoPolicy (size threshold : Nat) : ExecutionPolicy :=
  if size ≤ threshold then ExecutionPolicy.Seq else ExecutionPolicy.Par

/-- Iterator-range call shape of `autoPolicy`: dispatch on the distance
between the two iterators (embedded as positions). -/
def autoPolicyRange (first last threshold : Nat) : ExecutionPolicy :=
  if last - first ≤ threshold then ExecutionPolicy.Seq else ExecutionPolicy.Par

/-- Raw-count `autoPolicy` with its defaulted threshold argument. -/
def autoPolicyDefault (size : Nat) : ExecutionPolicy :=
  autoPolicy size kSeqThreshold

/-- Iterator-range `autoPolicy` with its defaulted threshold argument. -/
def autoPolicyRangeDefault (first last : Nat) : ExecutionPolicy :=
  autoPolicyRange first last kSeqThreshold

/-- `for_each(policy, first, last, f)`: apply `f` to each element in order
(the C++ body is `std::for_each` for every policy). Side effects of `f` are
modelled by threading a state. -/
def for_each (_policy : ExecutionPolicy) (l : List α) (s : σ) (f : σ → α → σ) : σ :=
  l.foldl f s

/-- `for_each_n(policy, first, n, f)` = `for_each(policy, first, first + n, f)`. -/
def for_each_n (policy : ExecutionPolicy) (l : List α) (n : Nat) (s : σ) (f : σ → α → σ) : σ :=
  for_each policy (l.take n) s f

/-- `copy(policy, first, last, d_first)`: write the source range over the
destination array starting at offset `d`. -/
def copy (_policy : ExecutionPolicy) (src dst : List α) (d : Nat) : List α :=
  dst.take d ++ src ++ dst.drop (d + src.length)

/-- `copy_n(policy, first, n, d_first)` = `copy(policy, first, first + n, d_first)`. -/
def copy_n (policy : ExecutionPolicy) (src : List α) (n : Nat) (dst : List α) (d : Nat) : List α :=
  copy policy (src.take n) dst d

/-- `scatter(policy, first, last, mapFirst, outputFirst)`: for each source
position `i`, `output[map[i]] = src[i]` (a `for_each` over the index range). -/
def scatter [Inhabited α] (policy : ExecutionPolicy) (src : List α) (mp : List Nat)
    (dst : List α) : List α :=
  for_each policy (List.range src.length) dst
    (fun d i => d.set (mp.getD i 0) (src.getD i default))

/-- `gather(policy, mapFirst, mapLast, inputFirst, outputFirst)`: for each
destination position `i`, `output[i] = input[map[i]]`. -/
def gather [Inhabited α] (policy : ExecutionPolicy) (mp : List Nat) (src : List α)
    (dst : List α) : List α :=
  for_each policy (List.range mp.length) dst
    (fun d i => d.set i (src.getD (mp.getD i 0) default))

/-- `sequence(policy, first, last)`: fill the range with `0, 1, 2, ...`. -/
def sequence (policy : ExecutionPolicy) (dst : List Nat) : List Nat :=
  for_each policy (List.range dst.length) dst (fun d i => d.set i i)

/-- `transform_reduce(policy, first, last, init, f, g)`: map `g` elementwise
then fold with `f` from `init`. -/
def transform_reduce (_policy : ExecutionPolicy) (l : List α) (init : β)
    (f : β → β → β) (g : α → β) : β :=
  (l.map g).foldl f init

/-! ### Union-find and component labelling

`UnionFind` (utils.h) is not under src/; only its call sites in
`Manifold::Decompose` are. It is modelled from the spec below. -/

/-- Modelled from the spec: one `uf.unionXY(a, b)` call of the missing
`UnionFind` (sec. 4.2), represented on the vector of current labels: the two
endpoint labels are merged by relabelling every occurrence of the second to
the first. Out-of-range endpoints read their own index (precondition
violation territory in the C++). -/
def ufStep (labels : List Nat) (e : Nat × Nat) : List Nat :=
  labels.map (fun l => if l = labels.getD e.2 e.2 then labels.getD e.1 e.1 else l)

/-- The forward half-edges of a mesh as (startVert, endVert) pairs, in
half-edge array order — exactly the union calls Decompose performs. -/
def forwardEdges (m : Impl) : List (Nat × Nat) :=
  (m.halfedge.filter Halfedge.IsForward).map (fun h => (h.startVert, h.endVert))

/-- Modelled from the spec: the raw (uncompacted) labelling the missing
`UnionFind` holds after Decompose's union loop: start from the identity
labelling of `[0, NumVert)` and process every forward half-edge in order. -/
def rawLabels (m : Impl) : List Nat :=
  (forwardEdges m).foldl ufStep (List.range (NumVert m))

/-- Modelled from the spec: label compaction of
`UnionFind::connectedComponents` (sec. 4.2) — the distinct raw labels in
first-encountered order, accumulated left to right. -/
def firstOccsAux (acc : List Nat) : List Nat → List Nat
  | [] => acc
  | l :: ls => if l ∈ acc then firstOccsAux acc ls else firstOccsAux (acc ++ [l]) ls

/-- Distinct values of a list in first-encountered order. -/
def firstOccs (ls : List Nat) : List Nat := firstOccsAux [] ls

/-- Component count returned by `uf.connectedComponents(componentIndices)`. -/
def numComponents (m : Impl) : Nat := (firstOccs (rawLabels m)).length

/-- Compacted component label of vertex `v` (`componentIndices[v]`, alias
`vertLabel[v]` in Decompose): the position of `v`'s raw label in the
first-encountered order of raw labels. -/
def compLabel (m : Impl) (v : Nat) : Nat :=
  (firstOccs (rawLabels m)).indexOf ((rawLabels m).getD v 0)

/-! ### Decompose (constructors.cpp, Manifold::Decompose) -/

/-- `vertNew2Old` for component label `i`: the stream compaction
`copy_if(countAt(0), countAt(numVert), ..., vertLabel[v] == i)` — vertices
labelled `i`, in ascending original order. -/
def keptVerts (m : Impl) (i : Nat) : List Nat :=
  (List.range (NumVert m)).filter (fun v => compLabel m v = i)

/-- `faceNew2Old` for component label `i`: the stream compaction keeping
face `f` iff `vertLabel[halfedge[3 * face].startVert] == i`. -/
def keptFaces (m : Impl) (i : Nat) : List Nat :=
  (List.range (NumTri m)).filter
    (fun f => compLabel m (m.halfedge.getD (3 * f) default).startVert = i)

/-- One output mesh of Decompose's component loop: gather the kept vertex
positions; gather the kept faces' half-edges (`Impl::GatherFaces`, modelled
from the spec: the three consecutive half-edges of each kept face, in kept
order); reindex their vertex references through `vertNew2Old`
(`Impl::ReindexVerts`, modelled from the spec: old index to its position in
the compacted vertex list); inherit epsilon and tolerance from the source.
`Impl::Finish` (modelled from the spec) only restores derived auxiliary
state, which this embedding does not carry, so it is the identity here. -/
def buildComponent (m : Impl) (i : Nat) : Impl :=
  let vertNew2Old := keptVerts m i
  let gathered := (keptFaces m i).flatMap (fun f =>
    [m.halfedge.getD (3 * f) default, m.halfedge.getD (3 * f + 1) default,
     m.halfedge.getD (3 * f + 2) default])
  { vertPos := vertNew2Old.map (fun v => m.vertPos.getD v default)
    halfedge := gathered.map (fun h =>
      ⟨vertNew2Old.indexOf h.startVert, vertNew2Old.indexOf h.endVert⟩)
    epsilon := m.epsilon
    tolerance := m.tolerance }

/-- `Manifold::Decompose`: union the endpoints of every forward half-edge,
compact the labels; if exactly one component, return a single logical copy
of the input; otherwise loop over the labels in ascending order, skip any
label whose compacted face list is empty, and emit the rebuilt component
meshes in loop order. -/
def decompose (m : Impl) : List Impl :=
  if numComponents m = 1 then [m]
  else (List.range (numComponents m)).foldl
    (fun acc i =>
      if (keptFaces m i).length = 0 then acc else acc ++ [buildComponent m i]) []

/-! ### Compose (constructors.cpp, Manifold::Compose) -/

/-- Shift both vertex references of a half-edge by an index offset. -/
def offsetHalfedge (k : Nat) (h : Halfedge) : Halfedge :=
  ⟨h.startVert + k, h.endVert + k⟩

/-- Modelled from the spec: `CsgLeafNode::Compose` (csg_tree.cpp, not under
src/), the only callee of `Manifold::Compose`: purely structural
concatenation of the inputs' vertex and half-edge arrays, each mesh's vertex
references offset so its data occupies a disjoint index range; the combined
precision scalars are the pointwise maxima of the inputs'. -/
def compose : List Impl → Impl
  | [] => { vertPos := [], halfedge := [], epsilon := 0, tolerance := 0 }
  | m :: ms =>
    let rest := compose ms
    { vertPos := m.vertPos ++ rest.vertPos
      halfedge := m.halfedge ++ rest.halfedge.map (offsetHalfedge (NumVert m))
      epsilon := max m.epsilon rest.epsilon
      tolerance := max m.tolerance rest.tolerance }

/-! ### Cube constructor guard (constructors.cpp, Manifold::Cube) -/

/-- `Manifold::Cube(size, center)`. The guard is
`size.x < 0 || size.y < 0 || size.z < 0 || la::length(size) == 0`; in exact
arithmetic the Euclidean norm vanishes iff the squared norm does, so the
norm test is embedded as a sum-of-squares test. On the valid path the
function hands `Impl` (external to src/) the shape transform, modelled as
the (scale, translation) pair of the `mat3x4`; `none` models `Invalid()`. -/
def Cube (size : Vec3) (center : Bool) : Option (Vec3 × Vec3) :=
  if size.1 < 0 ∨ size.2.1 < 0 ∨ size.2.2 < 0 ∨
      size.1 * size.1 + size.2.1 * size.2.1 + size.2.2 * size.2.2 = 0 then
    none
  else
    some (size,
      if center then (-(size.1 / 2), -(size.2.1 / 2), -(size.2.2 / 2)) else (0, 0, 0))

/-! ### Concrete meshes used as witnesses -/

/-- The empty mesh: zero vertices, zero triangles. -/
def emptyMesh : Impl :=
  { vertPos := [], halfedge := [], epsilon := 0, tolerance := 0 }

/-- A single triangle: one connected component. -/
def triMesh : Impl :=
  { vertPos := [(0, 0, 0), (1, 0, 0), (0, 1, 0)]
    halfedge := [⟨0, 1⟩, ⟨1, 2⟩, ⟨2, 0⟩]
    epsilon := 1
    tolerance := 2 }

/-- Two disjoint triangles plus one isolated vertex (index 6): three
components, one of them degenerate. -/
def isoMesh : Impl :=
  { vertPos := [(0, 0, 0), (1, 0, 0), (0, 1, 0), (5, 0, 0), (6, 0, 0), (5, 1, 0), (9, 9, 9)]
    halfedge := [⟨0, 1⟩, ⟨1, 2⟩, ⟨2, 0⟩, ⟨3, 4⟩, ⟨4, 5⟩, ⟨5, 3⟩]
    epsilon := 1
    tolerance := 2 }

/-- The geometries emitted by Decompose's component loop: one per
non-degenerate label, in ascending label order. -/
def componentGeoms (M : Impl) : List (List Vec3 × List Halfedge) :=
  ((List.range (numComponents M)).filter (fun i => ¬ (keptFaces M i).length = 0)).map
    (fun i => geom (buildComponent M i))

/-! ## Theorems -/

/-! ### Generic helper lemmas -/

/-- Decompose's emit-or-skip loop, as accumulate-filter-map. -/
theorem foldl_skip_eq {β : Type} (g : Nat → β) (q : Nat → Prop) [DecidablePred q] :
    ∀ (r : List Nat) (acc : List β),
      r.foldl (fun a i => if q i then a else a ++ [g i]) acc
        = acc ++ (r.filter (fun i => ¬ q i)).map g := by
  intro r
  induction r with
  | nil => intro acc; simp
  | cons i r ih =>
    intro acc
    by_cases hq : q i
    · simp [hq, ih]
    · simp [hq, ih, List.append_assoc]

/-- The Decompose loop output, in closed form, when the single-component
shortcut is not taken. -/
theorem decompose_eq_filterMap (m : Impl) (h : ¬ numComponents m = 1) :
    decompose m = ((List.range (numComponents m)).filter
      (fun i => ¬ (keptFaces m i).length = 0)).map (buildComponent m) := by
  unfold decompose
  rw [if_neg h, foldl_skip_eq (buildComponent m) (fun i => (keptFaces m i).length = 0)]
  simp

/-! ### C7: autoPolicy -/

/-- C7: for every size and threshold, autoPolicy returns Sequential exactly
when size is at most the threshold and Parallel otherwise, in both call
shapes (raw count and iterator-range distance), and the default threshold of
both shapes is the constant kSeqThreshold = 10000. -/
theorem autoPolicy_spec (size first last threshold : Nat) :
    (autoPolicy size threshold = ExecutionPolicy.Seq ↔ size ≤ threshold) ∧
    (autoPolicy size threshold = ExecutionPolicy.Par ↔ ¬ size ≤ threshold) ∧
    (autoPolicyRange first last threshold = ExecutionPolicy.Seq ↔ last - first ≤ threshold) ∧
    (autoPolicyRange first last threshold = ExecutionPolicy.Par ↔ ¬ last - first ≤ threshold) ∧
    autoPolicyDefault size = autoPolicy size 10000 ∧
    autoPolicyRangeDefault first last = autoPolicyRange first last 10000 ∧
    kSeqThreshold = 10000 := by
  refine ⟨?_, ?_, ?_, ?_, rfl, rfl, rfl⟩ <;>
    · simp only [autoPolicy, autoPolicyRange]
      split_ifs with h <;> simp_all

/-! ### C8: policy transparency -/

/-- C8: every substrate operation (for_each, for_each_n, copy, copy_n,
scatter, gather, sequence, transform_reduce) produces identical output under
forced Sequential and forced Parallel policy, on every input: in this source
both policies execute the same sequential algorithm. -/
theorem policy_transparent {α β σ : Type} [Inhabited α] (l src dst : List α)
    (mp dstN : List Nat) (n d : Nat) (s : σ) (f : σ → α → σ) (init : β)
    (comb : β → β → β) (g : α → β) :
    for_each ExecutionPolicy.Seq l s f = for_each ExecutionPolicy.Par l s f ∧
    for_each_n ExecutionPolicy.Seq l n s f = for_each_n ExecutionPolicy.Par l n s f ∧
    copy ExecutionPolicy.Seq src dst d = copy ExecutionPolicy.Par src dst d ∧
    copy_n ExecutionPolicy.Seq src n dst d = copy_n ExecutionPolicy.Par src n dst d ∧
    scatter ExecutionPolicy.Seq src mp dst = scatter ExecutionPolicy.Par src mp dst ∧
    gather ExecutionPolicy.Seq mp src dst = gather ExecutionPolicy.Par mp src dst ∧
    sequence ExecutionPolicy.Seq dstN = sequence ExecutionPolicy.Par dstN ∧
    transform_reduce ExecutionPolicy.Seq l init comb g
      = transform_reduce ExecutionPolicy.Par l init comb g :=
  ⟨rfl, rfl, rfl, rfl, rfl, rfl, rfl, rfl⟩

/-! ### C10: Cube guard -/

/-- C10: Cube returns the invalid (empty) Manifold exactly when some size
component is negative or the size vector's length is zero, the latter being
equivalent to all components being zero. -/
theorem Cube_invalid_iff (size : Vec3) (center : Bool) :
    Cube size center = none ↔
      (size.1 < 0 ∨ size.2.1 < 0 ∨ size.2.2 < 0 ∨
        (size.1 = 0 ∧ size.2.1 = 0 ∧ size.2.2 = 0)) := by
  obtain ⟨x, y, z⟩ := size
  have hsq : x * x + y * y + z * z = 0 ↔ x = 0 ∧ y = 0 ∧ z = 0 := by
    constructor
    · intro h
      refine ⟨?_, ?_, ?_⟩ <;>
        nlinarith [mul_self_nonneg x, mul_self_nonneg y, mul_self_nonneg z]
    · rintro ⟨hx, hy, hz⟩
      rw [hx, hy, hz]
      ring
  unfold Cube
  split_ifs with h
  · refine iff_of_true rfl ?_
    rcases h with h | h | h | h
    · exact Or.inl h
    · exact Or.inr (Or.inl h)
    · exact Or.inr (Or.inr (Or.inl h))
    · exact Or.inr (Or.inr (Or.inr (hsq.mp h)))
  · refine iff_of_false (by simp) fun hP => h ?_
    rcases hP with hP | hP | hP | hP
    · exact Or.inl hP
    · exact Or.inr (Or.inl hP)
    · exact Or.inr (Or.inr (Or.inl hP))
    · exact Or.inr (Or.inr (Or.inr (hsq.mpr hP)))

/-! ### C3: single-component shortcut -/

/-- C3: when the connected-component count is exactly one, Decompose returns
the one-element sequence holding a logical copy of the input mesh. -/
theorem decompose_single (m : Impl) (h : numComponents m = 1) :
    decompose m = [m] := by
  unfold decompose
  rw [if_pos h]

/-- Witness for C3 on a concrete one-component mesh. -/
theorem decompose_single_witness :
    numComponents triMesh = 1 ∧ decompose triMesh = [triMesh] :=
  ⟨by decide, decompose_single triMesh (by decide)⟩

/-! ### C4: empty input (corrected) -/

/-- Folding union steps over an empty label vector stays empty. -/
theorem foldl_ufStep_nil (es : List (Nat × Nat)) : es.foldl ufStep [] = [] := by
  induction es with
  | nil => rfl
  | cons e es ih => simpa [ufStep] using ih

/-- C4 counterexample: Decompose of the empty mesh does not return a
one-element sequence holding the input; the component count of an empty
vertex set is zero, so the single-copy shortcut is skipped and the component
loop emits nothing. -/
theorem decompose_empty_counterexample : decompose emptyMesh ≠ [emptyMesh] := by
  decide

/-- C4 as amended: Decompose applied to a mesh with zero vertices returns
the empty sequence. -/
theorem decompose_empty (m : Impl) (h : NumVert m = 0) : decompose m = [] := by
  have hraw : rawLabels m = [] := by
    unfold rawLabels
    rw [h, List.range_zero]
    exact foldl_ufStep_nil _
  have hnum : numComponents m = 0 := by
    unfold numComponents
    rw [hraw]
    rfl
  simp [decompose, hnum]

/-- Witness for the amended C4 at the concrete empty mesh. -/
theorem decompose_empty_witness : NumVert emptyMesh = 0 ∧ decompose emptyMesh = [] :=
  ⟨by decide, decompose_empty emptyMesh (by decide)⟩

/-! ### C6: tolerance propagation -/

/-- C6: every mesh Decompose produces carries the source mesh's epsilon and
tolerance unchanged, on both the single-component and the component-loop
path. -/
theorem decompose_tolerance (m out : Impl) (hout : out ∈ decompose m) :
    out.epsilon = m.epsilon ∧ out.tolerance = m.tolerance := by
  by_cases h : numComponents m = 1
  · unfold decompose at hout
    rw [if_pos h] at hout
    rw [List.mem_singleton.mp hout]
    exact ⟨rfl, rfl⟩
  · rw [decompose_eq_filterMap m h] at hout
    simp only [List.mem_map] at hout
    obtain ⟨i, -, rfl⟩ := hout
    exact ⟨rfl, rfl⟩

/-- Witness for C6 at a concrete multi-component mesh. -/
theorem decompose_tolerance_witness :
    buildComponent isoMesh 0 ∈ decompose isoMesh ∧
      (buildComponent isoMesh 0).epsilon = isoMesh.epsilon ∧
      (buildComponent isoMesh 0).tolerance = isoMesh.tolerance := by
  refine ⟨by decide, decompose_tolerance isoMesh (buildComponent isoMesh 0) (by decide)⟩

/-! ### C2: the vertex labelling is a partition -/

/-- Membership in the first-occurrence accumulator. -/
theorem mem_firstOccsAux (x : Nat) :
    ∀ (ls acc : List Nat), x ∈ firstOccsAux acc ls ↔ x ∈ acc ∨ x ∈ ls := by
  intro ls
  induction ls with
  | nil => intro acc; simp [firstOccsAux]
  | cons l ls ih =>
    intro acc
    by_cases hl : l ∈ acc
    · rw [firstOccsAux, if_pos hl, ih]
      constructor
      · rintro (h | h)
        · exact Or.inl h
        · exact Or.inr (List.mem_cons_of_mem _ h)
      · rintro (h | h)
        · exact Or.inl h
        · rcases List.mem_cons.mp h with rfl | h
          · exact Or.inl hl
          · exact Or.inr h
    · rw [firstOccsAux, if_neg hl, ih]
      simp [List.mem_append, List.mem_cons, or_assoc, or_comm, or_left_comm]

/-- A value occurs in the compacted label list iff it occurs in the raw list. -/
theorem mem_firstOccs (x : Nat) (ls : List Nat) : x ∈ firstOccs ls ↔ x ∈ ls := by
  rw [firstOccs, mem_firstOccsAux]
  simp

/-- A union step never changes the length of the label vector. -/
theorem ufStep_length (labels : List Nat) (e : Nat × Nat) :
    (ufStep labels e).length = labels.length := by
  simp [ufStep]

/-- The union loop never changes the length of the label vector. -/
theorem foldl_ufStep_length :
    ∀ (es : List (Nat × Nat)) (labels : List Nat),
      (es.foldl ufStep labels).length = labels.length := by
  intro es
  induction es with
  | nil => intro labels; rfl
  | cons e es ih => intro labels; rw [List.foldl_cons, ih, ufStep_length]

/-- There is one raw label per vertex. -/
theorem rawLabels_length (m : Impl) : (rawLabels m).length = NumVert m := by
  rw [rawLabels, foldl_ufStep_length, List.length_range]

/-- Every vertex's compacted label lies in `[0, numComponents)`. -/
theorem compLabel_lt (m : Impl) (v : Nat) (hv : v < NumVert m) :
    compLabel m v < numComponents m := by
  have hmem : (rawLabels m).getD v 0 ∈ rawLabels m := by
    rw [List.getD_eq_getElem _ _ (by rw [rawLabels_length]; exact hv)]
    exact List.getElem_mem _
  exact List.indexOf_lt_length.mpr ((mem_firstOccs _ _).mpr hmem)

/-- Membership in a component's compacted vertex list says exactly that the
vertex is in range and carries that label. -/
theorem mem_keptVerts (m : Impl) (i v : Nat) :
    v ∈ keptVerts m i ↔ v < NumVert m ∧ compLabel m v = i := by
  rw [keptVerts, List.mem_filter, List.mem_range]
  simp

/-- C2: the per-component vertex sets produced by Decompose's compaction are
pairwise disjoint; restricted to vertices incident on at least one triangle,
their union covers the vertex set; and each set only holds original
vertices. -/
theorem decompose_partition (m : Impl) :
    (∀ i j, i ≠ j → ∀ v ∈ keptVerts m i, v ∉ keptVerts m j) ∧
    (∀ v < NumVert m, incident m v → ∃ i < numComponents m, v ∈ keptVerts m i) ∧
    (∀ i, ∀ v ∈ keptVerts m i, v < NumVert m) := by
  refine ⟨?_, ?_, ?_⟩
  · intro i j hij v hvi hvj
    exact hij (((mem_keptVerts m i v).mp hvi).2 ▸ ((mem_keptVerts m j v).mp hvj).2)
  · intro v hv _
    exact ⟨compLabel m v, compLabel_lt m v hv, (mem_keptVerts m _ v).mpr ⟨hv, rfl⟩⟩
  · intro i v hvi
    exact ((mem_keptVerts m i v).mp hvi).1

/-- Witness for C2 at a concrete three-component mesh. -/
theorem decompose_partition_witness :
    (0 : Nat) ∉ keptVerts isoMesh 1 ∧
      (∃ i < numComponents isoMesh, 0 ∈ keptVerts isoMesh i) ∧
      6 < NumVert isoMesh := by
  obtain ⟨h1, h2, h3⟩ := decompose_partition isoMesh
  exact ⟨h1 0 1 (by decide) 0 (by decide), h2 0 (by decide) (by decide),
    h3 2 6 (by decide)⟩

/-! ### C9: gather then scatter restores the array -/

/-- Reading a mapped list inside its range maps the read. -/
theorem getD_map_lt {β γ : Type} (g : β → γ) (l : List β) (i : Nat) (hi : i < l.length)
    (d : β) (d2 : γ) : (l.map g).getD i d2 = g (l.getD i d) := by
  rw [List.getD_eq_getElem _ _ (by simpa using hi), List.getD_eq_getElem _ _ hi,
    List.getElem_map]

/-- Iterating a list by index through `List.range` is direct iteration. -/
theorem foldl_range_getD {β σ : Type} (l : List β) (d : β) (F : σ → β → σ) :
    ∀ s : σ, (List.range l.length).foldl (fun a i => F a (l.getD i d)) s = l.foldl F s := by
  induction l with
  | nil => intro s; rfl
  | cons b bs ih =>
    intro s
    rw [List.length_cons, List.range_succ_eq_map, List.foldl_cons, List.foldl_map]
    simp only [List.getD_cons_zero, List.getD_cons_succ]
    exact ih (F s b)

/-- A fold of indexed writes keeps the array length. -/
theorem foldl_set_length {α : Type} (val : Nat → α) :
    ∀ (mp : List Nat) (dst : List α),
      (mp.foldl (fun a j => a.set j (val j)) dst).length = dst.length := by
  intro mp
  induction mp with
  | nil => intro dst; rfl
  | cons j mp ih => intro dst; rw [List.foldl_cons, ih, List.length_set]

/-- Positions no write targets are untouched by a fold of indexed writes. -/
theorem foldl_set_get?_not_mem {α : Type} (val : Nat → α) :
    ∀ (mp : List Nat) (dst : List α) (p : Nat), p ∉ mp →
      (mp.foldl (fun a j => a.set j (val j)) dst).get? p = dst.get? p := by
  intro mp
  induction mp with
  | nil => intro dst p _; rfl
  | cons j mp ih =>
    intro dst p hp
    rw [List.foldl_cons, ih _ p (fun h => hp (List.mem_cons_of_mem _ h)),
      List.get?_set_ne _ _ (fun h => hp (by rw [← h]; exact List.mem_cons_self _ _))]

/-- A targeted in-range position holds its written value after a fold of
indexed writes (each position is written with a value depending only on the
position, so the last write wins trivially). -/
theorem foldl_set_get?_mem {α : Type} (val : Nat → α) :
    ∀ (mp : List Nat) (dst : List α) (p : Nat), p ∈ mp → p < dst.length →
      (mp.foldl (fun a j => a.set j (val j)) dst).get? p = some (val p) := by
  intro mp
  induction mp with
  | nil => intro dst p hp _; exact absurd hp (List.not_mem_nil p)
  | cons j mp ih =>
    intro dst p hp hlt
    rw [List.foldl_cons]
    by_cases hmem : p ∈ mp
    · exact ih _ p hmem (by rw [List.length_set]; exact hlt)
    · have hpj : p = j := by
        rcases List.mem_cons.mp hp with h | h
        · exact h
        · exact absurd h hmem
      subst hpj
      rw [foldl_set_get?_not_mem val mp _ p hmem]
      exact List.get?_set_eq_of_lt _ hlt

/-- The effect of `gather`: position `i` of the output receives
`src[map[i]]`, i.e. the output is `map` mapped through a read of `src`. -/
theorem gather_eq_map {α : Type} [Inhabited α] (pol : ExecutionPolicy) (mp : List Nat)
    (src dstG : List α) (hg : dstG.length = mp.length) :
    gather pol mp src dstG = mp.map (fun j => src.getD j default) := by
  refine List.ext_get?_iff.mpr fun p => ?_
  by_cases hp : p < mp.length
  · rw [List.get?_map]
    have hsome := foldl_set_get?_mem (fun i => src.getD (mp.getD i 0) default)
      (List.range mp.length) dstG p (List.mem_range.mpr hp) (by rw [hg]; exact hp)
    rw [gather, for_each, hsome, List.get?_eq_getElem? mp p, List.getElem?_eq_getElem hp]
    simp [List.getD_eq_getElem _ _ hp, List.getElem?_eq_getElem hp]
  · have h1 : (gather pol mp src dstG).get? p = none := by
      rw [List.get?_eq_none]
      rw [gather, for_each, foldl_set_length, hg]
      exact Nat.le_of_not_lt hp
    have h2 : (mp.map fun j => src.getD j default).get? p = none := by
      rw [List.get?_eq_none, List.length_map]
      exact Nat.le_of_not_lt hp
    rw [h1, h2]

/-- C9: for an index map that permutes `[0, len)` (the scatter precondition
of injectivity, made total over the destination), gathering a source array
through the map and scattering the result back through the same map
reconstructs the source array exactly. -/
theorem gather_scatter_roundtrip {α : Type} [Inhabited α] (pol : ExecutionPolicy)
    (A dst dstG : List α) (mp : List Nat)
    (hperm : List.Perm mp (List.range A.length))
    (hdst : dst.length = A.length) (hg : dstG.length = mp.length) :
    scatter pol (gather pol mp A dstG) mp dst = A := by
  rw [gather_eq_map pol mp A dstG hg]
  rw [scatter, for_each, List.length_map]
  have hbody : (List.range mp.length).foldl
      (fun d i => d.set (mp.getD i 0)
        ((mp.map fun j => A.getD j default).getD i default)) dst
      = (List.range mp.length).foldl
        (fun d i => d.set (mp.getD i 0) (A.getD (mp.getD i 0) default)) dst := by
    refine List.foldl_ext _ _ dst fun a i hi => ?_
    rw [getD_map_lt _ mp i (List.mem_range.mp hi) 0 default]
  rw [hbody, foldl_range_getD mp 0 (fun a j => a.set j (A.getD j default)) dst]
  have hmplen : mp.length = A.length := by simpa using hperm.length_eq
  refine List.ext_get?_iff.mpr fun p => ?_
  by_cases hp : p < A.length
  · rw [foldl_set_get?_mem (fun j => A.getD j default) mp dst p
      (hperm.mem_iff.mpr (List.mem_range.mpr hp)) (by rw [hdst]; exact hp)]
    rw [List.get?_eq_getElem? A p, List.getElem?_eq_getElem hp,
      List.getD_eq_getElem _ _ hp]
  · have h1 : (mp.foldl (fun a j => a.set j (A.getD j default)) dst).get? p = none := by
      rw [List.get?_eq_none, foldl_set_length, hdst]
      exact Nat.le_of_not_lt hp
    rw [h1, Eq.comm, List.get?_eq_none]
    exact Nat.le_of_not_lt hp

/-- Witness for C9 at a concrete permutation map. -/
theorem gather_scatter_roundtrip_witness :
    scatter ExecutionPolicy.Seq
        (gather ExecutionPolicy.Seq [2, 0, 1] ([10, 20, 30] : List ℤ) [0, 0, 0])
        [2, 0, 1] [0, 0, 0] = [10, 20, 30] :=
  gather_scatter_roundtrip ExecutionPolicy.Seq [10, 20, 30] [0, 0, 0] [0, 0, 0]
    [2, 0, 1] (by decide) (by decide) (by decide)

/-! ### C5: degenerate components are skipped -/

/-- A vertex touched by no union call keeps its identity raw label, and no
other vertex acquires it: its union-find class stays the singleton. -/
theorem uf_isolated (v : Nat) :
    ∀ (es : List (Nat × Nat)) (labels : List Nat),
      (∀ e ∈ es, e.1 ≠ v ∧ e.2 ≠ v) →
      v < labels.length →
      labels.getD v 0 = v →
      (∀ w, w < labels.length → w ≠ v → labels.getD w 0 ≠ v) →
      ((es.foldl ufStep labels).getD v 0 = v ∧
        ∀ w, w < (es.foldl ufStep labels).length → w ≠ v →
          (es.foldl ufStep labels).getD w 0 ≠ v) := by
  intro es
  induction es with
  | nil =>
    intro labels _ _ hself hothers
    exact ⟨hself, hothers⟩
  | cons e es ih =>
    intro labels hes hvlen hself hothers
    have hee := hes e (List.mem_cons_self _ _)
    have hlb : labels.getD e.2 e.2 ≠ v := by
      by_cases h2 : e.2 < labels.length
      · rw [List.getD_eq_getElem _ _ h2, ← List.getD_eq_getElem labels 0 h2]
        exact hothers e.2 h2 hee.2
      · rw [List.getD_eq_default _ _ (Nat.le_of_not_lt h2)]
        exact hee.2
    have hla : labels.getD e.1 e.1 ≠ v := by
      by_cases h1 : e.1 < labels.length
      · rw [List.getD_eq_getElem _ _ h1, ← List.getD_eq_getElem labels 0 h1]
        exact hothers e.1 h1 hee.1
      · rw [List.getD_eq_default _ _ (Nat.le_of_not_lt h1)]
        exact hee.1
    rw [List.foldl_cons]
    refine ih (ufStep labels e) (fun e2 he2 => hes e2 (List.mem_cons_of_mem _ he2))
      (by rw [ufStep_length]; exact hvlen) ?_ ?_
    · rw [ufStep, getD_map_lt _ labels v hvlen 0 0, hself, if_neg (fun h => hlb h.symm)]
    · intro w hwlen hwv
      rw [ufStep_length] at hwlen
      rw [ufStep, getD_map_lt _ labels w hwlen 0 0]
      split_ifs with h
      · exact hla
      · exact hothers w hwlen hwv

/-- A vertex index in range reads its own raw label off the label vector. -/
theorem rawLabel_mem (m : Impl) (v : Nat) (hv : v < NumVert m) :
    (rawLabels m).getD v 0 ∈ rawLabels m := by
  rw [List.getD_eq_getElem _ _ (by rw [rawLabels_length]; exact hv)]
  exact List.getElem_mem _

/-- A vertex incident on no half-edge keeps raw label `v`, uniquely. -/
theorem rawLabels_isolated (m : Impl) (v : Nat) (hv : v < NumVert m)
    (hinc : ¬ incident m v) :
    (rawLabels m).getD v 0 = v ∧
      ∀ w, w < NumVert m → w ≠ v → (rawLabels m).getD w 0 ≠ v := by
  have hes : ∀ e ∈ forwardEdges m, e.1 ≠ v ∧ e.2 ≠ v := by
    intro e he
    rw [forwardEdges, List.mem_map] at he
    obtain ⟨h, hh, rfl⟩ := he
    have hmem : h ∈ m.halfedge := (List.mem_filter.mp hh).1
    exact ⟨fun hs => hinc ⟨h, hmem, Or.inl hs⟩, fun hs => hinc ⟨h, hmem, Or.inr hs⟩⟩
  have hbase : ∀ w, w < (List.range (NumVert m)).length →
      (List.range (NumVert m)).getD w 0 = w := by
    intro w hw
    rw [List.length_range] at hw
    rw [List.getD_eq_getElem _ _ (by rw [List.length_range]; exact hw),
      List.getElem_range]
  have h := uf_isolated v (forwardEdges m) (List.range (NumVert m)) hes
    (by rw [List.length_range]; exact hv)
    (hbase v (by rw [List.length_range]; exact hv))
    (fun w hw hwv => by rw [hbase w hw]; exact hwv)
  refine ⟨h.1, fun w hw hwv => h.2 w ?_ hwv⟩
  rw [foldl_ufStep_length, List.length_range]
  exact hw

/-- Two list members with the same index have the same value. -/
theorem indexOf_inj {l : List Nat} {a b : Nat} (ha : a ∈ l) (hb : b ∈ l)
    (h : l.indexOf a = l.indexOf b) : a = b := by
  have h1 : l.get ⟨l.indexOf a, List.indexOf_lt_length.mpr ha⟩ = a := List.indexOf_get _
  have h2 : l.get ⟨l.indexOf b, List.indexOf_lt_length.mpr hb⟩ = b := List.indexOf_get _
  rw [← h1, ← h2]
  congr 1
  exact Fin.ext h

/-- C5: in the component loop, a label with empty compacted face list emits
no mesh (the loop output is exactly one mesh per non-degenerate label, in
ascending label order), and an isolated vertex — one incident on no
triangle — is absent from the compacted vertex list of every non-degenerate
label, hence from every output mesh. -/
theorem decompose_skips_degenerate (m : Impl) (hv : validRefs m)
    (h1 : ¬ numComponents m = 1) :
    decompose m = ((List.range (numComponents m)).filter
      (fun i => ¬ (keptFaces m i).length = 0)).map (buildComponent m) ∧
    (∀ v, v < NumVert m → ¬ incident m v →
      ∀ i, (keptFaces m i).length ≠ 0 → v ∉ keptVerts m i) := by
  refine ⟨decompose_eq_filterMap m h1, ?_⟩
  intro v hvlt hinc i hface hkept
  obtain ⟨-, hlabv⟩ := (mem_keptVerts m i v).mp hkept
  obtain ⟨f, hf⟩ := List.exists_mem_of_ne_nil (keptFaces m i)
    (fun h => hface (by rw [h]; rfl))
  rw [keptFaces, List.mem_filter, List.mem_range] at hf
  obtain ⟨hflt, hlabf⟩ := hf
  have h3f : 3 * f < m.halfedge.length := by
    have := Nat.div_mul_le_self m.halfedge.length 3
    unfold NumTri at hflt
    omega
  have hhe : m.halfedge.getD (3 * f) default ∈ m.halfedge := by
    rw [List.getD_eq_getElem _ _ h3f]
    exact List.getElem_mem _
  set sv := (m.halfedge.getD (3 * f) default).startVert with hsv
  have hsvlt : sv < NumVert m := (hv _ hhe).1
  have hsvne : sv ≠ v := fun h => hinc ⟨_, hhe, Or.inl h⟩
  obtain ⟨hrawv, hrawuniq⟩ := rawLabels_isolated m v hvlt hinc
  have hlabeq : compLabel m sv = compLabel m v := by
    rw [hlabv]
    simp only [decide_eq_true_eq] at hlabf
    exact hlabf
  have hraweq : (rawLabels m).getD sv 0 = (rawLabels m).getD v 0 :=
    indexOf_inj ((mem_firstOccs _ _).mpr (rawLabel_mem m sv hsvlt))
      ((mem_firstOccs _ _).mpr (rawLabel_mem m v hvlt)) hlabeq
  exact hrawuniq sv hsvlt hsvne (by rw [hraweq, hrawv])

/-- Witness for C5 at a mesh with two triangles and one isolated vertex. -/
theorem decompose_skips_degenerate_witness :
    decompose isoMesh = ((List.range (numComponents isoMesh)).filter
      (fun i => ¬ (keptFaces isoMesh i).length = 0)).map (buildComponent isoMesh) ∧
      (6 : Nat) ∉ keptVerts isoMesh 0 := by
  obtain ⟨h1, h2⟩ := decompose_skips_degenerate isoMesh (by decide) (by decide)
  exact ⟨h1, h2 6 (by decide) (by decide) 0 (by decide)⟩

/-! ### C1: Compose and Decompose are inverse. Stage 1: block structure -/

/-- Unfolding of `compose` on a cons. -/
theorem compose_cons (m : Impl) (ms : List Impl) :
    compose (m :: ms) =
      { vertPos := m.vertPos ++ (compose ms).vertPos
        halfedge := m.halfedge ++ (compose ms).halfedge.map (offsetHalfedge (NumVert m))
        epsilon := max m.epsilon (compose ms).epsilon
        tolerance := max m.tolerance (compose ms).tolerance } := rfl

/-- Splitting a range with the offset on the right. -/
theorem range_add_right (m n : Nat) :
    List.range (m + n) = List.range m ++ (List.range n).map (fun x => x + m) := by
  rw [List.range_add]
  congr 1
  exact List.map_congr_left fun x _ => Nat.add_comm m x

/-- Compose concatenates the vertex arrays. -/
theorem numVert_compose_cons (m : Impl) (ms : List Impl) :
    NumVert (compose (m :: ms)) = NumVert m + NumVert (compose ms) := by
  rw [compose_cons]
  simp [NumVert]

/-- Validity of vertex references is preserved by composition. -/
theorem validRefs_compose (ms : List Impl) (h : ∀ m ∈ ms, validRefs m) :
    validRefs (compose ms) := by
  induction ms with
  | nil => intro h2 hh; exact absurd hh (List.not_mem_nil _)
  | cons m ms ih =>
    have hm := h m (List.mem_cons_self _ _)
    have hrest := ih fun x hx => h x (List.mem_cons_of_mem _ hx)
    intro he hhe
    rw [compose_cons] at hhe
    rw [numVert_compose_cons]
    rcases List.mem_append.mp hhe with h1 | h2
    · have := hm he h1
      omega
    · obtain ⟨he0, hhe0, rfl⟩ := List.mem_map.mp h2
      have := hrest he0 hhe0
      simp only [offsetHalfedge]
      omega

/-- Well-formedness is preserved by composition. -/
theorem validMesh_compose (ms : List Impl) (h : ∀ m ∈ ms, validMesh m) :
    validMesh (compose ms) := by
  refine ⟨?_, validRefs_compose ms fun x hx => (h x hx).2⟩
  induction ms with
  | nil => rfl
  | cons m ms ih =>
    have h1 := (h m (List.mem_cons_self _ _)).1
    have h2 := ih fun x hx => h x (List.mem_cons_of_mem _ hx)
    rw [compose_cons]
    simp only [NumTri, List.length_append, List.length_map] at h1 h2 ⊢
    omega

/-- Composition adds triangle counts. -/
theorem numTri_compose_cons (m : Impl) (ms : List Impl)
    (hm : validMesh m) (hrest : validMesh (compose ms)) :
    NumTri (compose (m :: ms)) = NumTri m + NumTri (compose ms) := by
  have h1 := hm.1
  have h2 := hrest.1
  rw [compose_cons]
  simp only [NumTri, List.length_append, List.length_map] at h1 h2 ⊢
  omega

/-- Offsetting both endpoints does not change forwardness. -/
theorem isForward_offset (k : Nat) (h : Halfedge) :
    (offsetHalfedge k h).IsForward = h.IsForward := by
  simp [offsetHalfedge, Halfedge.IsForward]

/-- The union calls of the composed mesh are those of the first block
followed by the offset union calls of the rest. -/
theorem forwardEdges_compose_cons (m : Impl) (ms : List Impl) :
    forwardEdges (compose (m :: ms)) = forwardEdges m ++
      (forwardEdges (compose ms)).map
        (fun e => (e.1 + NumVert m, e.2 + NumVert m)) := by
  rw [compose_cons, forwardEdges, forwardEdges, forwardEdges]
  simp only []
  rw [List.filter_append, List.map_append, List.filter_map, List.map_map]
  congr 1
  have hf : List.filter (Halfedge.IsForward ∘ offsetHalfedge (NumVert m))
        (compose ms).halfedge
      = List.filter Halfedge.IsForward (compose ms).halfedge :=
    List.filter_congr fun x _ => isForward_offset (NumVert m) x
  rw [hf, List.map_map]
  exact List.map_congr_left fun h _ => rfl

/-- Labels only move around under a union step: every label of the output
vector was a label of the input vector. -/
theorem ufStep_mem (labels : List Nat) (e : Nat × Nat) (h1 : e.1 < labels.length) :
    ∀ x ∈ ufStep labels e, x ∈ labels := by
  intro x hx
  obtain ⟨y, hy, hfx⟩ := List.mem_map.mp hx
  rw [← hfx]
  split_ifs
  · rw [List.getD_eq_getElem _ _ h1]
    exact List.getElem_mem _
  · exact hy

/-- Labels only move around under the whole union loop. -/
theorem foldl_ufStep_mem :
    ∀ (es : List (Nat × Nat)) (labels : List Nat),
      (∀ e ∈ es, e.1 < labels.length) →
      ∀ x ∈ es.foldl ufStep labels, x ∈ labels := by
  intro es
  induction es with
  | nil => intro labels _ x hx; exact hx
  | cons e es ih =>
    intro labels hes x hx
    rw [List.foldl_cons] at hx
    exact ufStep_mem labels e (hes e (List.mem_cons_self _ _)) x
      (ih (ufStep labels e)
        (fun e2 he2 => by rw [ufStep_length]; exact hes e2 (List.mem_cons_of_mem _ he2))
        x hx)

/-- The union calls of a valid mesh stay inside its vertex range. -/
theorem forwardEdges_bounded (m : Impl) (hv : validRefs m) :
    ∀ e ∈ forwardEdges m, e.1 < NumVert m ∧ e.2 < NumVert m := by
  intro e he
  rw [forwardEdges, List.mem_map] at he
  obtain ⟨h, hh, rfl⟩ := he
  exact hv h (List.mem_filter.mp hh).1

/-- Raw labels of a valid mesh are vertex indices. -/
theorem rawLabels_lt (m : Impl) (hv : validRefs m) :
    ∀ x ∈ rawLabels m, x < NumVert m := by
  intro x hx
  refine List.mem_range.mp (foldl_ufStep_mem (forwardEdges m)
    (List.range (NumVert m)) (fun e he => ?_) x hx)
  rw [List.length_range]
  exact (forwardEdges_bounded m hv e he).1

/-- A union step whose endpoints lie in a low prefix, whose prefix labels
stay inside the prefix, and whose suffix labels are all at least the prefix
length, only rewrites the prefix. -/
theorem ufStep_append_low (A B : List Nat) (e : Nat × Nat)
    (h1 : e.1 < A.length) (h2 : e.2 < A.length)
    (hA : ∀ x ∈ A, x < A.length) (hB : ∀ y ∈ B, A.length ≤ y) :
    ufStep (A ++ B) e = ufStep A e ++ B := by
  have hread1 : (A ++ B).getD e.1 e.1 = A.getD e.1 e.1 := List.getD_append _ _ _ _ h1
  have hread2 : (A ++ B).getD e.2 e.2 = A.getD e.2 e.2 := List.getD_append _ _ _ _ h2
  rw [ufStep, ufStep, hread1, hread2, List.map_append]
  congr 1
  have hlb : A.getD e.2 e.2 < A.length := by
    rw [List.getD_eq_getElem _ _ h2]
    exact hA _ (List.getElem_mem _)
  refine (List.map_congr_left fun y hy => ?_).trans (List.map_id B)
  exact if_neg fun hcontra => absurd (hcontra ▸ hB y hy) (Nat.not_le_of_lt hlb)

/-- The union loop of the low block leaves a high suffix untouched. -/
theorem foldl_ufStep_append_low :
    ∀ (es : List (Nat × Nat)) (A B : List Nat),
      (∀ e ∈ es, e.1 < A.length ∧ e.2 < A.length) →
      (∀ x ∈ A, x < A.length) →
      (∀ y ∈ B, A.length ≤ y) →
      es.foldl ufStep (A ++ B) = (es.foldl ufStep A) ++ B := by
  intro es
  induction es with
  | nil => intro A B _ _ _; rfl
  | cons e es ih =>
    intro A B hes hA hB
    have he := hes e (List.mem_cons_self _ _)
    rw [List.foldl_cons, List.foldl_cons, ufStep_append_low A B e he.1 he.2 hA hB]
    refine ih (ufStep A e) B (fun e2 he2 => ?_) (fun x hx => ?_) (fun y hy => ?_)
    · rw [ufStep_length]
      exact hes e2 (List.mem_cons_of_mem _ he2)
    · rw [ufStep_length]
      exact hA x (ufStep_mem A e he.1 x hx)
    · rw [ufStep_length]
      exact hB y hy

/-- A union step with both endpoints offset into the shifted high block acts
as the unshifted step on the high block and leaves the low prefix alone. -/
theorem ufStep_append_shift (A B : List Nat) (e : Nat × Nat)
    (ha : e.1 < B.length) (hb : e.2 < B.length) (hA : ∀ x ∈ A, x < A.length) :
    ufStep (A ++ B.map (fun x => x + A.length)) (e.1 + A.length, e.2 + A.length)
      = A ++ (ufStep B e).map (fun x => x + A.length) := by
  have hreada : (A ++ B.map (fun x => x + A.length)).getD (e.1 + A.length)
      (e.1 + A.length) = B.getD e.1 e.1 + A.length := by
    rw [List.getD_append_right _ _ _ _ (by omega : A.length ≤ e.1 + A.length),
      Nat.add_sub_cancel]
    exact getD_map_lt (fun x => x + A.length) B e.1 ha e.1 _
  have hreadb : (A ++ B.map (fun x => x + A.length)).getD (e.2 + A.length)
      (e.2 + A.length) = B.getD e.2 e.2 + A.length := by
    rw [List.getD_append_right _ _ _ _ (by omega : A.length ≤ e.2 + A.length),
      Nat.add_sub_cancel]
    exact getD_map_lt (fun x => x + A.length) B e.2 hb e.2 _
  rw [ufStep, ufStep]
  simp only [hreada, hreadb]
  rw [List.map_append]
  congr 1
  · refine (List.map_congr_left fun y hy => ?_).trans (List.map_id A)
    exact if_neg fun hcontra => by have := hA y hy; omega
  · rw [List.map_map, List.map_map]
    refine List.map_congr_left fun y _ => ?_
    simp only [Function.comp_apply]
    by_cases hyb : y = B.getD e.2 e.2
    · rw [if_pos (by rw [hyb]), if_pos hyb]
    · rw [if_neg fun hcontra => hyb (by omega), if_neg hyb]

/-- The union loop of the offset high block acts blockwise. -/
theorem foldl_ufStep_append_shift :
    ∀ (es : List (Nat × Nat)) (A B : List Nat),
      (∀ e ∈ es, e.1 < B.length ∧ e.2 < B.length) →
      (∀ x ∈ A, x < A.length) →
      (es.map (fun e => (e.1 + A.length, e.2 + A.length))).foldl ufStep
          (A ++ B.map (fun x => x + A.length))
        = A ++ (es.foldl ufStep B).map (fun x => x + A.length) := by
  intro es
  induction es with
  | nil => intro A B _ _; rfl
  | cons e es ih =>
    intro A B hes hA
    have he := hes e (List.mem_cons_self _ _)
    rw [List.map_cons, List.foldl_cons, List.foldl_cons,
      ufStep_append_shift A B e he.1 he.2 hA]
    refine ih A (ufStep B e) (fun e2 he2 => ?_) hA
    rw [ufStep_length]
    exact hes e2 (List.mem_cons_of_mem _ he2)

/-- Raw labels of a composed mesh: first block's raw labels followed by the
rest's raw labels, offset by the first block's vertex count. -/
theorem rawLabels_compose_cons (m : Impl) (ms : List Impl)
    (hm : validRefs m) (hrest : validRefs (compose ms)) :
    rawLabels (compose (m :: ms))
      = rawLabels m ++ (rawLabels (compose ms)).map (fun x => x + NumVert m) := by
  rw [rawLabels, forwardEdges_compose_cons, numVert_compose_cons, range_add_right,
    List.foldl_append,
    foldl_ufStep_append_low (forwardEdges m) (List.range (NumVert m))
      ((List.range (NumVert (compose ms))).map (fun x => x + NumVert m))
      (fun e he => by
        rw [List.length_range]
        exact forwardEdges_bounded m hm e he)
      (fun x hx => by
        rw [List.length_range]
        exact List.mem_range.mp hx)
      (fun y hy => by
        obtain ⟨x, -, rfl⟩ := List.mem_map.mp hy
        rw [List.length_range]
        omega)]
  have hfold : List.foldl ufStep (List.range (NumVert m)) (forwardEdges m)
      = rawLabels m := rfl
  have hfold2 : List.foldl ufStep (List.range (NumVert (compose ms)))
      (forwardEdges (compose ms)) = rawLabels (compose ms) := rfl
  have hshift := foldl_ufStep_append_shift (forwardEdges (compose ms)) (rawLabels m)
    (List.range (NumVert (compose ms)))
    (fun e he => by
      rw [List.length_range]
      exact forwardEdges_bounded (compose ms) hrest e he)
    (fun x hx => by
      rw [rawLabels_length]
      exact rawLabels_lt m hm x hx)
  rw [rawLabels_length, hfold2] at hshift
  rw [hfold]
  exact hshift

/-! Stage 2: component labels of a composed mesh -/

/-- A single-component mesh carries one constant raw label below its vertex
count, and has at least one vertex. -/
theorem rawLabels_single (m : Impl) (hv : validRefs m) (h1 : numComponents m = 1) :
    ∃ r, r < NumVert m ∧ 1 ≤ NumVert m ∧
      rawLabels m = List.replicate (NumVert m) r := by
  rw [numComponents] at h1
  obtain ⟨r, hr⟩ := List.length_eq_one.mp h1
  have hmem : ∀ y ∈ rawLabels m, y = r := by
    intro y hy
    have hy2 := (mem_firstOccs y (rawLabels m)).mpr hy
    rw [hr] at hy2
    exact List.mem_singleton.mp hy2
  have hrep : rawLabels m = List.replicate (NumVert m) r := by
    rw [← rawLabels_length m]
    exact List.eq_replicate_length.mpr hmem
  have hrmem : r ∈ rawLabels m := by
    have hr2 : r ∈ firstOccs (rawLabels m) := by
      rw [hr]
      exact List.mem_singleton.mpr rfl
    exact (mem_firstOccs r _).mp hr2
  have hrlt := rawLabels_lt m hv r hrmem
  exact ⟨r, hrlt, by omega, hrep⟩

/-- A replicated value already recorded in the accumulator is absorbed. -/
theorem firstOccsAux_replicate_mem (r : Nat) (acc : List Nat) (hmem : r ∈ acc) :
    ∀ (k : Nat) (rest : List Nat),
      firstOccsAux acc (List.replicate k r ++ rest) = firstOccsAux acc rest := by
  intro k
  induction k with
  | zero => intro rest; rfl
  | succ k ih =>
    intro rest
    rw [List.replicate_succ, List.cons_append, firstOccsAux, if_pos hmem]
    exact ih rest

/-- An accumulator prefix disjoint from the scanned list passes through. -/
theorem firstOccsAux_acc_append (acc1 : List Nat) :
    ∀ (ls acc2 : List Nat), (∀ y ∈ ls, y ∉ acc1) →
      firstOccsAux (acc1 ++ acc2) ls = acc1 ++ firstOccsAux acc2 ls := by
  intro ls
  induction ls with
  | nil => intro acc2 _; rfl
  | cons l ls ih =>
    intro acc2 hdisj
    have hl : l ∉ acc1 := hdisj l (List.mem_cons_self _ _)
    simp only [firstOccsAux]
    by_cases hmem : l ∈ acc2
    · rw [if_pos (List.mem_append.mpr (Or.inr hmem)), if_pos hmem]
      exact ih acc2 fun y hy => hdisj y (List.mem_cons_of_mem _ hy)
    · rw [if_neg fun h => (List.mem_append.mp h).elim hl hmem, if_neg hmem,
        List.append_assoc]
      exact ih (acc2 ++ [l]) fun y hy => hdisj y (List.mem_cons_of_mem _ hy)

/-- Compaction commutes with an injective additive shift. -/
theorem firstOccsAux_shift (n : Nat) :
    ∀ (ls acc : List Nat),
      firstOccsAux (acc.map (fun x => x + n)) (ls.map (fun x => x + n))
        = (firstOccsAux acc ls).map (fun x => x + n) := by
  intro ls
  induction ls with
  | nil => intro acc; rfl
  | cons l ls ih =>
    intro acc
    rw [List.map_cons]
    simp only [firstOccsAux]
    have hmm : (l + n) ∈ acc.map (fun x => x + n) ↔ l ∈ acc := by
      constructor
      · intro h
        obtain ⟨y, hy, hee⟩ := List.mem_map.mp h
        have hyl : y = l := by omega
        rw [← hyl]
        exact hy
      · intro h
        exact List.mem_map.mpr ⟨l, h, rfl⟩
    by_cases hmem : l ∈ acc
    · rw [if_pos (hmm.mpr hmem), if_pos hmem]
      exact ih acc
    · rw [if_neg fun h => hmem (hmm.mp h), if_neg hmem,
        show acc.map (fun x => x + n) ++ [l + n] = (acc ++ [l]).map (fun x => x + n) by
          rw [List.map_append]; rfl]
      exact ih (acc ++ [l])

/-- Shifted compaction, at the top level. -/
theorem firstOccs_shift (n : Nat) (ls : List Nat) :
    firstOccs (ls.map (fun x => x + n)) = (firstOccs ls).map (fun x => x + n) := by
  rw [firstOccs, firstOccs, ← firstOccsAux_shift n ls []]
  rfl

/-- Compaction of a nonempty constant block followed by strictly higher
values: the constant comes first, the rest compacts on its own. -/
theorem firstOccs_block_cons (noff k r : Nat) (hk : 1 ≤ k) (hr : r < noff)
    (rest : List Nat) (hrest : ∀ y ∈ rest, noff ≤ y) :
    firstOccs (List.replicate k r ++ rest) = r :: firstOccs rest := by
  obtain ⟨k2, rfl⟩ : ∃ k2, k = k2 + 1 := ⟨k - 1, by omega⟩
  rw [firstOccs, List.replicate_succ, List.cons_append, firstOccsAux,
    if_neg (List.not_mem_nil r), List.nil_append,
    firstOccsAux_replicate_mem r [r] (List.mem_singleton.mpr rfl) k2 rest]
  have hstep := firstOccsAux_acc_append [r] rest [] fun y hy hcon => by
    have h1 : y = r := List.mem_singleton.mp hcon
    have h2 := hrest y hy
    omega
  rw [List.append_nil] at hstep
  exact hstep

/-- indexOf commutes with an additive shift. -/
theorem indexOf_map_add (n x : Nat) :
    ∀ l : List Nat, (l.map (fun y => y + n)).indexOf (x + n) = l.indexOf x := by
  intro l
  induction l with
  | nil => rfl
  | cons y l ih =>
    rw [List.map_cons]
    by_cases hxy : y = x
    · rw [hxy, List.indexOf_cons_self, List.indexOf_cons_self]
    · rw [List.indexOf_cons_ne _ fun h => hxy (by omega),
        List.indexOf_cons_ne _ hxy, ih]

/-- indexOf into a range is the value itself. -/
theorem indexOf_range : ∀ (n x : Nat), x < n → (List.range n).indexOf x = x := by
  intro n
  induction n with
  | zero => intro x hx; omega
  | succ n ih =>
    intro x hx
    rw [List.range_succ_eq_map]
    cases x with
    | zero => rw [List.indexOf_cons_self]
    | succ x2 =>
      rw [List.indexOf_cons_ne _ (by omega)]
      have hmap : (List.range n).map Nat.succ = (List.range n).map (fun y => y + 1) :=
        rfl
      rw [hmap, indexOf_map_add 1 x2 (List.range n), ih x2 (by omega)]

/-- Reading a list back by index is the identity. -/
theorem map_range_getD_self {β : Type} (l : List β) (d : β) :
    (List.range l.length).map (fun i => l.getD i d) = l := by
  induction l with
  | nil => rfl
  | cons b bs ih =>
    rw [List.length_cons, List.range_succ_eq_map, List.map_cons, List.map_map]
    show b :: (List.range bs.length).map (fun i => bs.getD i d) = b :: bs
    rw [ih]

/-- Reassembling a list of triples from its indices. -/
theorem flatMap_triples {β : Type} [Inhabited β] :
    ∀ (t : Nat) (l : List β), l.length = 3 * t →
      (List.range t).flatMap (fun f => [l.getD (3 * f) default,
        l.getD (3 * f + 1) default, l.getD (3 * f + 2) default]) = l := by
  intro t
  induction t with
  | zero =>
    intro l hl
    rw [List.length_eq_zero.mp (by omega : l.length = 0)]
    rfl
  | succ t ih =>
    intro l hl
    cases l with
    | nil => simp only [List.length_nil] at hl; omega
    | cons a l1 =>
      cases l1 with
      | nil => simp only [List.length_cons, List.length_nil] at hl; omega
      | cons b l2 =>
        cases l2 with
        | nil => simp only [List.length_cons, List.length_nil] at hl; omega
        | cons c l3 =>
          have hl3 : l3.length = 3 * t := by
            simp only [List.length_cons] at hl
            omega
          rw [List.range_succ_eq_map, List.flatMap_cons, List.flatMap_map]
          show a :: b :: c :: ((List.range t).flatMap
              (fun f => [l3.getD (3 * f) default, l3.getD (3 * f + 1) default,
                l3.getD (3 * f + 2) default]))
            = a :: b :: c :: l3
          rw [ih l3 hl3]

/-! Stage 3: labels, kept vertices and kept faces of a good composition.
Hypotheses: the head mesh is valid with constant raw label `r` (single
component) and the composed tail is valid. -/

/-- Raw labels of a good composition: constant head block, shifted rest. -/
theorem rawLabels_good_cons (m : Impl) (ms : List Impl) (r : Nat)
    (hvm : validRefs m) (hvrest : validRefs (compose ms))
    (hraw : rawLabels m = List.replicate (NumVert m) r) :
    rawLabels (compose (m :: ms))
      = List.replicate (NumVert m) r
        ++ (rawLabels (compose ms)).map (fun x => x + NumVert m) := by
  rw [rawLabels_compose_cons m ms hvm hvrest, hraw]

/-- Compacted labels of a good composition: the head's label then the
shifted compacted labels of the rest. -/
theorem firstOccs_good_cons (m : Impl) (ms : List Impl) (r : Nat)
    (hvm : validRefs m) (hvrest : validRefs (compose ms))
    (hraw : rawLabels m = List.replicate (NumVert m) r)
    (hr : r < NumVert m) (hn : 1 ≤ NumVert m) :
    firstOccs (rawLabels (compose (m :: ms)))
      = r :: (firstOccs (rawLabels (compose ms))).map (fun x => x + NumVert m) := by
  rw [rawLabels_good_cons m ms r hvm hvrest hraw,
    firstOccs_block_cons (NumVert m) (NumVert m) r hn hr _
      (fun y hy => by
        obtain ⟨x, -, rfl⟩ := List.mem_map.mp hy
        omega),
    firstOccs_shift]

/-- Component counts add one block at a time in a good composition. -/
theorem numComponents_good_cons (m : Impl) (ms : List Impl) (r : Nat)
    (hvm : validRefs m) (hvrest : validRefs (compose ms))
    (hraw : rawLabels m = List.replicate (NumVert m) r)
    (hr : r < NumVert m) (hn : 1 ≤ NumVert m) :
    numComponents (compose (m :: ms)) = numComponents (compose ms) + 1 := by
  rw [numComponents, firstOccs_good_cons m ms r hvm hvrest hraw hr hn,
    List.length_cons, List.length_map]
  rfl

/-- Every head-block vertex gets component label 0. -/
theorem compLabel_good_low (m : Impl) (ms : List Impl) (r : Nat)
    (hvm : validRefs m) (hvrest : validRefs (compose ms))
    (hraw : rawLabels m = List.replicate (NumVert m) r)
    (hr : r < NumVert m) (hn : 1 ≤ NumVert m)
    (v : Nat) (hv : v < NumVert m) :
    compLabel (compose (m :: ms)) v = 0 := by
  rw [compLabel, firstOccs_good_cons m ms r hvm hvrest hraw hr hn,
    rawLabels_good_cons m ms r hvm hvrest hraw]
  have hget : (List.replicate (NumVert m) r
      ++ (rawLabels (compose ms)).map (fun x => x + NumVert m)).getD v 0 = r := by
    rw [List.getD_append _ _ _ _ (by rw [List.length_replicate]; exact hv),
      List.getD_eq_getElem _ _ (by rw [List.length_replicate]; exact hv),
      List.getElem_replicate]
  rw [hget, List.indexOf_cons_self]

/-- Every rest-block vertex gets one plus its label in the rest. -/
theorem compLabel_good_high (m : Impl) (ms : List Impl) (r : Nat)
    (hvm : validRefs m) (hvrest : validRefs (compose ms))
    (hraw : rawLabels m = List.replicate (NumVert m) r)
    (hr : r < NumVert m) (hn : 1 ≤ NumVert m)
    (v : Nat) (hv : v < NumVert (compose ms)) :
    compLabel (compose (m :: ms)) (v + NumVert m)
      = compLabel (compose ms) v + 1 := by
  rw [compLabel, firstOccs_good_cons m ms r hvm hvrest hraw hr hn,
    rawLabels_good_cons m ms r hvm hvrest hraw]
  have hget : (List.replicate (NumVert m) r
      ++ (rawLabels (compose ms)).map (fun x => x + NumVert m)).getD (v + NumVert m) 0
      = (rawLabels (compose ms)).getD v 0 + NumVert m := by
    rw [List.getD_append_right _ _ _ _ (by rw [List.length_replicate]; omega),
      List.length_replicate, Nat.add_sub_cancel]
    exact getD_map_lt _ _ v (by rw [rawLabels_length]; exact hv) 0 0
  rw [hget,
    List.indexOf_cons_ne _ (by omega : r ≠ (rawLabels (compose ms)).getD v 0 + NumVert m),
    indexOf_map_add]
  rfl

/-- The compacted vertex list of label 0 is the whole head block. -/
theorem keptVerts_good_low (m : Impl) (ms : List Impl) (r : Nat)
    (hvm : validRefs m) (hvrest : validRefs (compose ms))
    (hraw : rawLabels m = List.replicate (NumVert m) r)
    (hr : r < NumVert m) (hn : 1 ≤ NumVert m) :
    keptVerts (compose (m :: ms)) 0 = List.range (NumVert m) := by
  rw [keptVerts, numVert_compose_cons, range_add_right, List.filter_append]
  have h1 : (List.range (NumVert m)).filter
      (fun v => compLabel (compose (m :: ms)) v = 0) = List.range (NumVert m) := by
    rw [List.filter_eq_self]
    intro v hv
    simp only [decide_eq_true_eq]
    exact compLabel_good_low m ms r hvm hvrest hraw hr hn v (List.mem_range.mp hv)
  have h2 : ((List.range (NumVert (compose ms))).map (fun x => x + NumVert m)).filter
      (fun v => compLabel (compose (m :: ms)) v = 0) = [] := by
    rw [List.filter_eq_nil_iff]
    intro a ha
    obtain ⟨x, hx, rfl⟩ := List.mem_map.mp ha
    simp only [decide_eq_true_eq]
    rw [compLabel_good_high m ms r hvm hvrest hraw hr hn x (List.mem_range.mp hx)]
    omega
  rw [h1, h2, List.append_nil]

/-- The compacted vertex list of label `i + 1` is the shifted compacted
vertex list of label `i` in the rest. -/
theorem keptVerts_good_high (m : Impl) (ms : List Impl) (r : Nat)
    (hvm : validRefs m) (hvrest : validRefs (compose ms))
    (hraw : rawLabels m = List.replicate (NumVert m) r)
    (hr : r < NumVert m) (hn : 1 ≤ NumVert m) (i : Nat) :
    keptVerts (compose (m :: ms)) (i + 1)
      = (keptVerts (compose ms) i).map (fun x => x + NumVert m) := by
  rw [keptVerts, numVert_compose_cons, range_add_right, List.filter_append]
  have h1 : (List.range (NumVert m)).filter
      (fun v => compLabel (compose (m :: ms)) v = i + 1) = [] := by
    rw [List.filter_eq_nil_iff]
    intro v hv
    simp only [decide_eq_true_eq]
    rw [compLabel_good_low m ms r hvm hvrest hraw hr hn v (List.mem_range.mp hv)]
    omega
  have h2 : ((List.range (NumVert (compose ms))).map (fun x => x + NumVert m)).filter
        (fun v => compLabel (compose (m :: ms)) v = i + 1)
      = (keptVerts (compose ms) i).map (fun x => x + NumVert m) := by
    rw [List.filter_map, keptVerts]
    congr 1
    refine List.filter_congr fun x hx => ?_
    simp only [Function.comp_apply, decide_eq_true_eq]
    rw [compLabel_good_high m ms r hvm hvrest hraw hr hn x (List.mem_range.mp hx)]
    exact decide_eq_decide.mpr (by omega)
  rw [h1, h2, List.nil_append]

/-- Reads into the head block of the composed half-edge array. -/
theorem halfedge_compose_low (m : Impl) (ms : List Impl) (j : Nat)
    (hj : j < m.halfedge.length) :
    (compose (m :: ms)).halfedge.getD j default = m.halfedge.getD j default := by
  rw [compose_cons]
  exact List.getD_append _ _ _ _ hj

/-- Reads into the offset rest block of the composed half-edge array. -/
theorem halfedge_compose_high (m : Impl) (ms : List Impl) (j : Nat)
    (hj : j < (compose ms).halfedge.length) :
    (compose (m :: ms)).halfedge.getD (m.halfedge.length + j) default
      = offsetHalfedge (NumVert m) ((compose ms).halfedge.getD j default) := by
  rw [compose_cons]
  show (m.halfedge ++ (compose ms).halfedge.map
      (offsetHalfedge (NumVert m))).getD (m.halfedge.length + j) default
    = offsetHalfedge (NumVert m) ((compose ms).halfedge.getD j default)
  rw [List.getD_append_right _ _ _ _ (by omega), Nat.add_sub_cancel_left]
  exact getD_map_lt _ _ j hj default _

/-- An in-range half-edge read is a member of the array. -/
theorem halfedge_getD_mem (l : List Halfedge) (j : Nat) (hj : j < l.length) :
    l.getD j default ∈ l := by
  rw [List.getD_eq_getElem _ _ hj]
  exact List.getElem_mem _

/-- The compacted face list of label 0 is the whole head block. -/
theorem keptFaces_good_low (m : Impl) (ms : List Impl) (r : Nat)
    (hvm : validMesh m) (hvrest : validMesh (compose ms))
    (hraw : rawLabels m = List.replicate (NumVert m) r)
    (hr : r < NumVert m) (hn : 1 ≤ NumVert m) :
    keptFaces (compose (m :: ms)) 0 = List.range (NumTri m) := by
  rw [keptFaces, numTri_compose_cons m ms hvm hvrest, range_add_right,
    List.filter_append]
  have h1 : (List.range (NumTri m)).filter (fun f =>
        compLabel (compose (m :: ms))
          ((compose (m :: ms)).halfedge.getD (3 * f) default).startVert = 0)
      = List.range (NumTri m) := by
    rw [List.filter_eq_self]
    intro f hf
    have hf3 : 3 * f < m.halfedge.length := by
      have h3 := hvm.1
      have := List.mem_range.mp hf
      omega
    simp only [decide_eq_true_eq]
    rw [halfedge_compose_low m ms _ hf3]
    exact compLabel_good_low m ms r hvm.2 hvrest.2 hraw hr hn _
      (hvm.2 _ (halfedge_getD_mem _ _ hf3)).1
  have h2 : ((List.range (NumTri (compose ms))).map (fun x => x + NumTri m)).filter
      (fun f => compLabel (compose (m :: ms))
        ((compose (m :: ms)).halfedge.getD (3 * f) default).startVert = 0) = [] := by
    rw [List.filter_eq_nil_iff]
    intro a ha
    obtain ⟨x, hx, rfl⟩ := List.mem_map.mp ha
    have hx3 : 3 * x < (compose ms).halfedge.length := by
      have h3 := hvrest.1
      have := List.mem_range.mp hx
      omega
    have hidx : 3 * (x + NumTri m) = m.halfedge.length + 3 * x := by
      have h3 := hvm.1
      omega
    simp only [decide_eq_true_eq]
    rw [hidx, halfedge_compose_high m ms _ hx3, offsetHalfedge]
    show ¬ compLabel (compose (m :: ms))
      (((compose ms).halfedge.getD (3 * x) default).startVert + NumVert m) = 0
    rw [compLabel_good_high m ms r hvm.2 hvrest.2 hraw hr hn _
      (hvrest.2 _ (halfedge_getD_mem _ _ hx3)).1]
    omega
  rw [h1, h2, List.append_nil]

/-- The compacted face list of label `i + 1` is the shifted compacted face
list of label `i` in the rest. -/
theorem keptFaces_good_high (m : Impl) (ms : List Impl) (r : Nat)
    (hvm : validMesh m) (hvrest : validMesh (compose ms))
    (hraw : rawLabels m = List.replicate (NumVert m) r)
    (hr : r < NumVert m) (hn : 1 ≤ NumVert m) (i : Nat) :
    keptFaces (compose (m :: ms)) (i + 1)
      = (keptFaces (compose ms) i).map (fun x => x + NumTri m) := by
  rw [keptFaces, numTri_compose_cons m ms hvm hvrest, range_add_right,
    List.filter_append]
  have h1 : (List.range (NumTri m)).filter (fun f =>
        compLabel (compose (m :: ms))
          ((compose (m :: ms)).halfedge.getD (3 * f) default).startVert = i + 1)
      = [] := by
    rw [List.filter_eq_nil_iff]
    intro f hf
    have hf3 : 3 * f < m.halfedge.length := by
      have h3 := hvm.1
      have := List.mem_range.mp hf
      omega
    simp only [decide_eq_true_eq]
    rw [halfedge_compose_low m ms _ hf3,
      compLabel_good_low m ms r hvm.2 hvrest.2 hraw hr hn _
        (hvm.2 _ (halfedge_getD_mem _ _ hf3)).1]
    omega
  have h2 : ((List.range (NumTri (compose ms))).map (fun x => x + NumTri m)).filter
        (fun f => compLabel (compose (m :: ms))
          ((compose (m :: ms)).halfedge.getD (3 * f) default).startVert = i + 1)
      = (keptFaces (compose ms) i).map (fun x => x + NumTri m) := by
    rw [List.filter_map, keptFaces]
    congr 1
    refine List.filter_congr fun x hx => ?_
    have hx3 : 3 * x < (compose ms).halfedge.length := by
      have h3 := hvrest.1
      have := List.mem_range.mp hx
      omega
    have hidx : 3 * (x + NumTri m) = m.halfedge.length + 3 * x := by
      have h3 := hvm.1
      omega
    simp only [Function.comp_apply]
    rw [hidx, halfedge_compose_high m ms _ hx3, offsetHalfedge]
    show decide (compLabel (compose (m :: ms))
        (((compose ms).halfedge.getD (3 * x) default).startVert + NumVert m) = i + 1)
      = decide (compLabel (compose ms)
        ((compose ms).halfedge.getD (3 * x) default).startVert = i)
    rw [compLabel_good_high m ms r hvm.2 hvrest.2 hraw hr hn _
      (hvrest.2 _ (halfedge_getD_mem _ _ hx3)).1]
    exact decide_eq_decide.mpr (by omega)
  rw [h1, h2, List.nil_append]

/-- Congruence for flatMap over the members of the list. -/
theorem flatMap_congr_mem {β γ : Type} (l : List β) (f g : β → List γ)
    (h : ∀ a ∈ l, f a = g a) : l.flatMap f = l.flatMap g := by
  induction l with
  | nil => rfl
  | cons b bs ih =>
    rw [List.flatMap_cons, List.flatMap_cons, h b (List.mem_cons_self _ _),
      ih fun a ha => h a (List.mem_cons_of_mem _ ha)]

/-- Rebuilding component 0 of a good composition reproduces the head mesh's
geometry exactly. -/
theorem buildComponent_good_low (m : Impl) (ms : List Impl) (r : Nat)
    (hvm : validMesh m) (hvrest : validMesh (compose ms))
    (hraw : rawLabels m = List.replicate (NumVert m) r)
    (hr : r < NumVert m) (hn : 1 ≤ NumVert m) :
    geom (buildComponent (compose (m :: ms)) 0) = geom m := by
  simp only [buildComponent, geom, Prod.mk.injEq,
    keptVerts_good_low m ms r hvm.2 hvrest.2 hraw hr hn,
    keptFaces_good_low m ms r hvm hvrest hraw hr hn]
  refine ⟨?_, ?_⟩
  · have hread : ∀ v ∈ List.range (NumVert m),
        (compose (m :: ms)).vertPos.getD v default = m.vertPos.getD v default := by
      intro v hv
      rw [compose_cons]
      exact List.getD_append _ _ _ _ (List.mem_range.mp hv)
    rw [List.map_congr_left hread]
    exact map_range_getD_self m.vertPos default
  · have htriple : ∀ f ∈ List.range (NumTri m),
        [(compose (m :: ms)).halfedge.getD (3 * f) default,
          (compose (m :: ms)).halfedge.getD (3 * f + 1) default,
          (compose (m :: ms)).halfedge.getD (3 * f + 2) default]
        = [m.halfedge.getD (3 * f) default, m.halfedge.getD (3 * f + 1) default,
          m.halfedge.getD (3 * f + 2) default] := by
      intro f hf
      have h3 := hvm.1
      have hf2 := List.mem_range.mp hf
      rw [halfedge_compose_low m ms _ (by omega), halfedge_compose_low m ms _ (by omega),
        halfedge_compose_low m ms _ (by omega)]
    rw [flatMap_congr_mem _ _ _ htriple, flatMap_triples (NumTri m) m.halfedge hvm.1]
    refine (List.map_congr_left fun h hmem => ?_).trans (List.map_id _)
    have hb := hvm.2 h hmem
    rw [indexOf_range _ _ hb.1, indexOf_range _ _ hb.2]
    rfl

/-- Rebuilding component `i + 1` of a good composition reproduces the
geometry of component `i` of the composed rest. -/
theorem buildComponent_good_high (m : Impl) (ms : List Impl) (r : Nat)
    (hvm : validMesh m) (hvrest : validMesh (compose ms))
    (hraw : rawLabels m = List.replicate (NumVert m) r)
    (hr : r < NumVert m) (hn : 1 ≤ NumVert m) (i : Nat) :
    geom (buildComponent (compose (m :: ms)) (i + 1))
      = geom (buildComponent (compose ms) i) := by
  simp only [buildComponent, geom, Prod.mk.injEq,
    keptVerts_good_high m ms r hvm.2 hvrest.2 hraw hr hn i,
    keptFaces_good_high m ms r hvm hvrest hraw hr hn i]
  refine ⟨?_, ?_⟩
  · rw [List.map_map]
    refine List.map_congr_left fun v hv => ?_
    have hvlt : v < NumVert (compose ms) := ((mem_keptVerts _ _ _).mp hv).1
    have hlen : m.vertPos.length = NumVert m := rfl
    simp only [Function.comp_apply]
    rw [compose_cons]
    show (m.vertPos ++ (compose ms).vertPos).getD (v + NumVert m) default
      = (compose ms).vertPos.getD v default
    rw [List.getD_append_right _ _ _ _ (by omega),
      show v + NumVert m - m.vertPos.length = v by omega]
  · rw [List.map_flatMap, List.map_flatMap, List.flatMap_map]
    refine flatMap_congr_mem _ _ _ fun f hf => ?_
    have hfT : f < NumTri (compose ms) := by
      have := (List.mem_filter.mp hf).1
      exact List.mem_range.mp this
    have h3 := hvrest.1
    have h3m := hvm.1
    have hidx0 : 3 * (f + NumTri m) = m.halfedge.length + 3 * f := by omega
    have hidx1 : m.halfedge.length + 3 * f + 1 = m.halfedge.length + (3 * f + 1) := by
      omega
    have hidx2 : m.halfedge.length + 3 * f + 2 = m.halfedge.length + (3 * f + 2) := by
      omega
    rw [hidx0, hidx1, hidx2, halfedge_compose_high m ms _ (by omega),
      halfedge_compose_high m ms _ (by omega), halfedge_compose_high m ms _ (by omega)]
    simp only [List.map_cons, List.map_nil, offsetHalfedge, indexOf_map_add]

/-- The component loop of a good composition emits the head's geometry,
then the rest's components. -/
theorem componentGeoms_good_cons (m : Impl) (ms : List Impl) (r : Nat)
    (hvm : validMesh m) (hvrest : validMesh (compose ms))
    (hraw : rawLabels m = List.replicate (NumVert m) r)
    (hr : r < NumVert m) (hn : 1 ≤ NumVert m) (htm : 1 ≤ NumTri m) :
    componentGeoms (compose (m :: ms)) = geom m :: componentGeoms (compose ms) := by
  rw [componentGeoms, componentGeoms,
    numComponents_good_cons m ms r hvm.2 hvrest.2 hraw hr hn,
    List.range_succ_eq_map, List.filter_cons]
  have hp0 : ¬ (keptFaces (compose (m :: ms)) 0).length = 0 := by
    rw [keptFaces_good_low m ms r hvm hvrest hraw hr hn, List.length_range]
    omega
  rw [if_pos (decide_eq_true hp0), List.map_cons,
    buildComponent_good_low m ms r hvm hvrest hraw hr hn, List.filter_map,
    List.map_map]
  congr 1
  have hfilter : (List.range (numComponents (compose ms))).filter
        ((fun i => ¬ (keptFaces (compose (m :: ms)) i).length = 0) ∘ Nat.succ)
      = (List.range (numComponents (compose ms))).filter
        (fun i => ¬ (keptFaces (compose ms) i).length = 0) := by
    refine List.filter_congr fun i _ => ?_
    simp only [Function.comp_apply]
    rw [show Nat.succ i = i + 1 from rfl,
      keptFaces_good_high m ms r hvm hvrest hraw hr hn i, List.length_map]
  rw [hfilter]
  refine List.map_congr_left fun i _ => ?_
  simp only [Function.comp_apply]
  rw [show Nat.succ i = i + 1 from rfl]
  exact buildComponent_good_high m ms r hvm hvrest hraw hr hn i

/-- Component labels and component geometries of a composition of valid,
single-component, triangle-bearing meshes: one component per input, with
exactly the inputs' geometries, in order. -/
theorem componentGeoms_compose :
    ∀ ms : List Impl, (∀ x ∈ ms, validMesh x ∧ numComponents x = 1 ∧ 1 ≤ NumTri x) →
      numComponents (compose ms) = ms.length ∧
      componentGeoms (compose ms) = ms.map geom := by
  intro ms
  induction ms with
  | nil => intro _; exact ⟨rfl, rfl⟩
  | cons m ms ih =>
    intro h
    obtain ⟨hvm, h1m, htm⟩ := h m (List.mem_cons_self _ _)
    obtain ⟨hnum, hgeo⟩ := ih fun x hx => h x (List.mem_cons_of_mem _ hx)
    have hvrest : validMesh (compose ms) :=
      validMesh_compose ms fun x hx => (h x (List.mem_cons_of_mem _ hx)).1
    obtain ⟨r, hr, hn, hraw⟩ := rawLabels_single m hvm.2 h1m
    refine ⟨?_, ?_⟩
    · rw [numComponents_good_cons m ms r hvm.2 hvrest.2 hraw hr hn, hnum,
        List.length_cons]
    · rw [componentGeoms_good_cons m ms r hvm hvrest hraw hr hn htm, hgeo,
        List.map_cons]

/-- Compose only looks at the geometries of its inputs. -/
theorem compose_geom_congr :
    ∀ l1 l2 : List Impl, l1.map geom = l2.map geom →
      geom (compose l1) = geom (compose l2) := by
  intro l1
  induction l1 with
  | nil =>
    intro l2 h
    rw [List.map_nil] at h
    rw [List.map_eq_nil.mp h.symm]
  | cons m l1 ih =>
    intro l2 h
    cases l2 with
    | nil => exact absurd h (by simp)
    | cons m2 l2 =>
      rw [List.map_cons, List.map_cons] at h
      injection h with h1 h2
      have hrec := ih l2 h2
      have hvp : m.vertPos = m2.vertPos := congrArg Prod.fst h1
      have hhe : m.halfedge = m2.halfedge := congrArg Prod.snd h1
      have hvpr : (compose l1).vertPos = (compose l2).vertPos := congrArg Prod.fst hrec
      have hher : (compose l1).halfedge = (compose l2).halfedge := congrArg Prod.snd hrec
      rw [compose_cons, compose_cons, geom, geom]
      show (m.vertPos ++ (compose l1).vertPos,
          m.halfedge ++ (compose l1).halfedge.map (offsetHalfedge (NumVert m)))
        = (m2.vertPos ++ (compose l2).vertPos,
          m2.halfedge ++ (compose l2).halfedge.map (offsetHalfedge (NumVert m2)))
      rw [hvp, hhe, hvpr, hher, show NumVert m = NumVert m2 from congrArg List.length hvp]

/-- C1: for a sequence of valid single-component meshes each bearing at
least one triangle (pairwise disconnected by construction of Compose),
decompose (compose ms) reproduces the sequence's geometries exactly, in
order; and composing the decomposition back reproduces the composed mesh's
geometry, hence its total vertex and triangle counts. -/
theorem compose_decompose_roundtrip (ms : List Impl)
    (h : ∀ x ∈ ms, validMesh x ∧ numComponents x = 1 ∧ 1 ≤ NumTri x) :
    (decompose (compose ms)).map geom = ms.map geom ∧
    geom (compose (decompose (compose ms))) = geom (compose ms) ∧
    NumVert (compose (decompose (compose ms))) = NumVert (compose ms) ∧
    NumTri (compose (decompose (compose ms))) = NumTri (compose ms) := by
  obtain ⟨hnum, hgeo⟩ := componentGeoms_compose ms h
  have hmain : (decompose (compose ms)).map geom = ms.map geom := by
    by_cases hk : numComponents (compose ms) = 1
    · rw [decompose, if_pos hk]
      rw [hk] at hnum
      obtain ⟨m, rfl⟩ := List.length_eq_one.mp hnum.symm
      rw [List.map_cons, List.map_nil, List.map_cons, List.map_nil]
      have hone : geom (compose [m]) = geom m := by
        rw [compose_cons, geom, geom]
        show (m.vertPos ++ (compose []).vertPos, m.halfedge
            ++ (compose []).halfedge.map (offsetHalfedge (NumVert m)))
          = (m.vertPos, m.halfedge)
        rw [show (compose ([] : List Impl)).vertPos = [] from rfl,
          show (compose ([] : List Impl)).halfedge = [] from rfl,
          List.append_nil, List.map_nil, List.append_nil]
      rw [hone]
    · rw [decompose_eq_filterMap _ hk, List.map_map]
      exact hgeo
  have hcg := compose_geom_congr (decompose (compose ms)) ms hmain
  exact ⟨hmain, hcg, congrArg (fun p => p.1.length) hcg,
    congrArg (fun p => p.2.length / 3) hcg⟩

/-- Witness for C1 at the composition of two concrete triangles. -/
theorem compose_decompose_roundtrip_witness :
    (decompose (compose [triMesh, triMesh])).map geom = [triMesh, triMesh].map geom ∧
    geom (compose (decompose (compose [triMesh, triMesh])))
      = geom (compose [triMesh, triMesh]) ∧
    NumVert (compose (decompose (compose [triMesh, triMesh])))
      = NumVert (compose [triMesh, triMesh]) ∧
    NumTri (compose (decompose (compose [triMesh, triMesh])))
      = NumTri (compose [triMesh, triMesh]) :=
  compose_decompose_roundtrip [triMesh, triMesh] (by decide)

end ManifoldSpec
